import Mathlib

/-!
Verification of `oasislmf/exposures/manager.py` (OasisExposuresManager):
a shallow embedding of `load_gul_master_data_frame` and
`load_fm_master_data_frame`, together with proofs of the documented
properties of the GUL item table, the FM master table, the term-derivation
worker pool and the policy-TC grouper.

Modelling conventions:
* data-frame rows become Lean structures; a data frame becomes a `List` of
  rows in frame order;
* numeric cell values (TIV, deductible, limit, share) are `Rat`; a nullable
  cell is `Option Rat` (the source runs under Python 2, where `None > 0`
  is `False`);
* code that can raise becomes `Except String`;
* ids read from CSV columns are `Int`, ids minted by the code are `Int`
  (item ids) or `Nat` (layer ids, policy-TC ids).
-/

set_option autoImplicit false

namespace Oasis

/-- An entry of the canonical exposures profile whose `FieldName` is `TIV`:
`manager.py` keeps its `CoverageTypeID` and `ProfileElementName`
(lines 574-576). -/
structure TivField where
  coverageTypeID : Int
  profileElementName : String
deriving DecidableEq, Repr

/-- A row of the keys (lookup) data frame after lower-casing of column names
and the rename `CoverageID -> CoverageType` (lines 567-570). -/
structure KeysItem where
  locid : Int
  coveragetype : Int
  areaperilid : Int
  vulnerabilityid : Int
deriving DecidableEq, Repr

/-- A row of the canonical exposures data frame: the `row_id` column plus the
profile-defined columns, kept as an association list from (lower-cased)
column name to a nullable numeric value (`canexp_df.where(notnull, None)`,
lines 563-565). -/
structure CanExpItem where
  row_id : Int
  fields : List (String × Option Rat)
deriving DecidableEq, Repr

/-- Python's `str.lower()` applied to a profile element name (line 609),
modelled char-by-char over the string data (`String.toLower` itself does not
reduce in the kernel; this definition agrees with it). -/
def pyLower (s : String) : String := ⟨s.data.map Char.toLower⟩

/-- Reading a cell of a canonical exposure row by column name
(`canexp_item[tiv_lookup]`, line 610): the outer `none` is a missing column
(a Python `KeyError`), `some none` is a null cell. -/
def CanExpItem.cell (c : CanExpItem) (name : String) : Option (Option Rat) :=
  (c.fields.find? (fun p => p.1 = name)).map (fun p => p.2)

/-- A row of the GUL master data frame (columns of lines 578-588). -/
structure GulItem where
  item_id : Int
  canloc_id : Int
  coverage_id : Int
  tiv : Rat
  areaperil_id : Int
  vulnerability_id : Int
  group_id : Int
  summary_id : Int
  summaryset_id : Int
deriving DecidableEq, Repr

/-- The test `tiv_value > 0` of line 611 on a nullable cell: under Python 2 a
null (`None`) compares below every number, so only a present, strictly
positive value passes. -/
def tivPositive : Option Rat → Bool
  | none => false
  | some v => decide (0 < v)

/-- The inner loop of `load_gul_master_data_frame` (lines 608-623): scan the
TIV fields matching the keys row's coverage type in order; a missing column
is a `KeyError`; a present value `> 0` emits one `GulItem` with the next
sequential `item_id` (and `coverage_id = group_id = item_id`,
`summary_id = summaryset_id = 1`); a null or non-positive value emits
nothing. -/
def emitForFields (c : CanExpItem) (k : KeysItem) :
    List TivField → Int → Except String (List GulItem)
  | [], _ => .ok []
  | f :: fs, itemId =>
    match c.cell (pyLower f.profileElementName) with
    | none => .error ("KeyError: " ++ pyLower f.profileElementName)
    | some none => emitForFields c k fs itemId
    | some (some tv) =>
      if 0 < tv then
        (emitForFields c k fs (itemId + 1)).map
          (fun rest =>
            { item_id := itemId + 1
              canloc_id := c.row_id
              coverage_id := itemId + 1
              tiv := tv
              areaperil_id := k.areaperilid
              vulnerability_id := k.vulnerabilityid
              group_id := itemId + 1
              summary_id := 1
              summaryset_id := 1 } :: rest)
      else emitForFields c k fs itemId

/-- The consistency-error message of lines 600-603, naming the offending keys
row by its `locid`. -/
def consistencyErrorMsg (k : KeysItem) : String :=
  "No matching canonical exposure item found in canonical " ++
    "exposures data frame for keys item " ++ toString k.locid

/-- The outer loop of `load_gul_master_data_frame` (lines 594-623): for each
keys row find the first canonical exposure row with `row_id == locid`
(`canexp_df[canexp_df.row_id == locid]` then `.iloc[0]`, lines 598, 605);
no match raises the consistency error of lines 600-603; otherwise emit the
items of the matching TIV fields and continue with the advanced item-id
counter. -/
def loadGulRows (canexp : List CanExpItem) (tiv_fields : List TivField) :
    List KeysItem → Int → Except String (List GulItem)
  | [], _ => .ok []
  | k :: ks, itemId =>
    match canexp.find? (fun c => c.row_id = k.locid) with
    | none => .error (consistencyErrorMsg k)
    | some c =>
      match emitForFields c k (tiv_fields.filter
          (fun f => f.coverageTypeID = k.coveragetype)) itemId with
      | .error e => .error e
      | .ok these =>
        (loadGulRows canexp tiv_fields ks (itemId + these.length)).map
          (fun rest => these ++ rest)

/-- The body of `load_gul_master_data_frame` (lines 594-625): the item-id
counter starts at 0 and the GUL master frame is the concatenation of the
per-keys-row emissions. -/
def load_gul_master_data_frame (canexp : List CanExpItem)
    (tiv_fields : List TivField) (keys : List KeysItem) :
    Except String (List GulItem) :=
  loadGulRows canexp tiv_fields keys 0

/-- Count of TIV-field matches with positive value for one keys row, read off
the same scan as `emitForFields`: used to state the item-count property. -/
def posPairCountRow (canexp : List CanExpItem) (tiv_fields : List TivField)
    (k : KeysItem) : Nat :=
  match canexp.find? (fun c => c.row_id = k.locid) with
  | none => 0
  | some c =>
    (tiv_fields.filter (fun f => f.coverageTypeID = k.coveragetype)).countP
      (fun f => tivPositive ((c.cell (pyLower f.profileElementName)).getD none))

/-- Total count over all keys rows of scanned (lookup row, matching TIV field)
pairs whose TIV value is strictly positive. -/
def posPairCount (canexp : List CanExpItem) (tiv_fields : List TivField)
    (keys : List KeysItem) : Nat :=
  (keys.map (posPairCountRow canexp tiv_fields)).sum

end Oasis

namespace Oasis

/-- A row of the canonical accounts data frame: only the `policynum` column is
read by `load_fm_master_data_frame` (line 662). -/
structure CanAccItem where
  policynum : String
deriving DecidableEq, Repr

/-- A row of the FM master data frame (columns of lines 644-647). `level_id`
and `layer_id` are the 1-based ranks minted by the code. -/
structure FmRow where
  item_id : Int
  canloc_id : Int
  level_id : Nat
  layer_id : Nat
  agg_id : Int
  policytc_id : Int
  deductible : Rat
  limit : Rat
  share : Rat
  deductible_type : String
  calcrule_id : Int
  tiv : Rat
deriving DecidableEq, Repr

/-- An element of `preset_data` (lines 656-668): the Python pair
`(level, (item_id, canloc_id, layer, tiv))` flattened into a structure. -/
structure Preset where
  level : Int
  item_id : Int
  canloc_id : Int
  layer_id : Nat
  tiv : Rat
deriving DecidableEq, Repr

/-- Lines 656-660: `itertools.product(fm_levels, zip(item_id, canloc_id,
[1]*len(gulm_df), tiv))` — level-major Cartesian product of the FM levels
with the GUL items, every pair carrying `layer = 1`. -/
def presetBase (fm_levels : List Int) (gul : List GulItem) : List Preset :=
  fm_levels.flatMap (fun l => gul.map (fun g =>
    { level := l, item_id := g.item_id, canloc_id := g.canloc_id,
      layer_id := 1, tiv := g.tiv }))

/-- Line 662: `layer_ids = [(i + 1) for i in range(len(canacc_df.policynum.values))]`
— the list `[1, ..., n]` where `n` is the number of rows of the canonical
accounts frame (NOT the number of distinct policy numbers). -/
def layer_ids (canacc : List CanAccItem) : List Nat :=
  List.range' 1 canacc.length

/-- `max(layer_ids)` of line 664, as a fold; Python's `max` on the empty list
raises, which `load_fm_master_data_frame` models with an explicit guard. -/
def maxLayer (canacc : List CanAccItem) : Nat :=
  (layer_ids canacc).foldl max 0

/-- The number of distinct policy numbers in the canonical accounts frame
(what the spec claims the layer count is). -/
def distinctPolicynums (canacc : List CanAccItem) : Nat :=
  (canacc.map (fun a => a.policynum)).dedup.length

/-- Python's tail slice `xs[-m:]` (line 667, `preset_data[-len(gulm_df):]`):
for `m = 0` it is the whole list, otherwise the last `m` elements (clamped). -/
def pythonTailSlice {α : Type} (xs : List α) (m : Nat) : List α :=
  if m = 0 then xs else xs.drop (xs.length - m)

/-- Lines 656-668: the base product, extended — when `max(layer_ids) > 1` —
with, for each layer id `2..L`, a copy of the LAST `len(gulm_df)` elements of
`preset_data` (the comprehension of line 666 rebuilds the tuple with the
layer replaced and level, item, canloc and tiv carried over). -/
def presetData (fm_levels : List Int) (gul : List GulItem)
    (canacc : List CanAccItem) : List Preset :=
  let base := presetBase fm_levels gul
  if 1 < maxLayer canacc then
    base ++ ((layer_ids canacc).drop 1).flatMap (fun ly =>
      (pythonTailSlice base gul.length).map (fun p => { p with layer_id := ly }))
  else base

/-- Lines 670-676: a preset tuple becomes an FM row; `level_id` is
`fm_levels.index(level) + 1` (the comprehension
`[fml for fml in fm_levels if fml == level_id][0]` picks the first equal
element, so `.index` of it is `indexOf`); the term columns get the
placeholders `0, 0.0, 0.0, 0.0, 'B', 2`. -/
def toFmRow (fm_levels : List Int) (p : Preset) : FmRow :=
  { item_id := p.item_id
    canloc_id := p.canloc_id
    level_id := fm_levels.indexOf p.level + 1
    layer_id := p.layer_id
    agg_id := 1
    policytc_id := 0
    deductible := 0
    limit := 0
    share := 0
    deductible_type := "B"
    calcrule_id := 2
    tiv := p.tiv }

/-- The row-construction part of `load_fm_master_data_frame`
(lines 639-688): `fm_levels` stands for `sorted(gfmt.keys())` (line 654),
where `gfmt` is produced by `canonical_profiles_grouped_fm_terms`
(`oasislmf.utils.fm`, outside this file's source) — its keys are distinct
dictionary keys, so `fm_levels` is a duplicate-free list. An empty accounts
frame makes `max(layer_ids)` of line 664 raise `ValueError`. -/
def load_fm_master_data_frame (gul : List GulItem) (fm_levels : List Int)
    (canacc : List CanAccItem) : Except String (List FmRow) :=
  if canacc.length = 0 then .error "max() arg is an empty sequence"
  else .ok ((presetData fm_levels gul canacc).map (toFmRow fm_levels))

end Oasis

namespace Oasis

/-- The 5-tuple of term values of an FM row
`(deductible, limit, share, deductible_type, calcrule_id)`. -/
abbrev TermTuple : Type := Rat × Rat × Rat × String × Int

/-- The term 5-tuple read off one FM row. -/
def FmRow.termTuple (r : FmRow) : TermTuple :=
  (r.deductible, r.limit, r.share, r.deductible_type, r.calcrule_id)

/-- First occurrences of each distinct element of a list, in scan order. -/
def firstSeen {α : Type} [DecidableEq α] : List α → List α
  | [] => []
  | t :: ts => t :: firstSeen (ts.filter (fun u => u ≠ t))
termination_by l => l.length
decreasing_by
  simp only [List.length_cons]
  exact Nat.lt_succ_of_le (List.length_filter_le _ _)

/-- Index of the first occurrence of an element in a list (0 when absent,
a case the callers below never hit). -/
def indexOfFirst {α : Type} [DecidableEq α] : List α → α → Nat
  | [], _ => 0
  | b :: bs, a => if a = b then 0 else indexOfFirst bs a + 1

/-- Modelled from the spec: `get_policytc_id` is imported from
`oasislmf.utils.fm` (line 37), which is not part of this source tree.
Spec §4.4 describes it: scan rows in table order, mint the next ascending
integer id (starting at 1) for each term 5-tuple not seen before, and assign
every row the id recorded for its tuple; here the id of a row is 1 plus the
rank of its tuple among first occurrences. Out-of-range indices (which the
call of line 756 never produces) get 0. -/
def get_policytc_id (rows : List FmRow) (i : Nat) : Nat :=
  match rows[i]? with
  | none => 0
  | some r =>
    indexOfFirst (firstSeen (rows.map FmRow.termTuple)) r.termTuple + 1

/-- Line 756: `fm_df['policytc_id'] = fm_df['index'].apply(lambda i:
get_policytc_id(fm_df, i))` — assign every row the id computed from the
whole (fully term-populated) frame. -/
def assignPolicytcIds (rows : List FmRow) : List FmRow :=
  rows.mapIdx (fun i r => { r with policytc_id := (get_policytc_id rows i : Int) })

/-- Modelled from the spec: the grouped FM term metadata built by
`canonical_profiles_grouped_fm_terms` (`oasislmf.utils.fm`, not part of this
source tree) is, per spec §6, "a structure mapping level identifiers to
term-derivation hints"; its internal shape is irrelevant here because every
property proved below holds for arbitrary rule functions over it. -/
abbrev GroupedFmTerms : Type := List (Int × List (String × String))

/-- A value of one term column (numeric for limit, deductible, share;
a string for deductible_type; numeric code for calcrule_id). -/
inductive TermValue where
  | num (q : Rat)
  | str (s : String)
deriving DecidableEq, Repr

/-- The shape of the rule functions `get_limit`, `get_deductible`,
`get_deductible_type`, `get_share`, `get_calc_rule` imported from
`oasislmf.utils.fm` (lines 30-39, outside this source tree): grouped terms,
the two canonical frames, the FM frame and a row index in, one value out,
or an exception. The theorems below quantify over every such function. -/
abbrev RuleFunc : Type :=
  GroupedFmTerms → List CanExpItem → List CanAccItem → List FmRow → Nat →
    Except String TermValue

/-- One task tuple of lines 697-700: `(column, func, deepcopy(gfmt),
canexp_df.copy(deep=True), canacc_df.copy(deep=True), fm_df.copy(deep=True))`.
Values are immutable in the embedding, so a deep copy is the value itself;
the significant fact is that every task carries the PRE-derivation FM frame
as it was before any worker started. -/
structure FmTask where
  column : String
  func : RuleFunc
  gfmt : GroupedFmTerms
  canexp : List CanExpItem
  canacc : List CanAccItem
  fm : List FmRow

/-- Line 690: the five term columns, in task order. -/
def fm_term_columns : List String :=
  ["limit", "deductible", "deductible_type", "share", "calcrule_id"]

/-- Lines 692-700: zip the columns with their rule functions and build one
task per column, all from the same pre-derivation inputs. -/
def mkTasks (funcs : List (String × RuleFunc)) (gfmt : GroupedFmTerms)
    (canexp : List CanExpItem) (canacc : List CanAccItem)
    (fm : List FmRow) : List FmTask :=
  funcs.map (fun cf =>
    { column := cf.1, func := cf.2, gfmt := gfmt,
      canexp := canexp, canacc := canacc, fm := fm })

/-- Line 721: `fm_df_copy['index'].apply(lambda i: func(gfmt_copy,
canexp_df_copy, canacc_df_copy, fm_df_copy, i))` — one call per row index
over the whole column, with no interruption point; the first raising row
aborts the whole apply. -/
def deriveColumn (t : FmTask) : Except String (List TermValue) :=
  (List.range t.fm.length).mapM
    (fun i => t.func t.gfmt t.canexp t.canacc t.fm i)

/-- The five term columns of the shared FM frame after zero or more merges:
column name to merged values, `none` meaning the placeholder column is still
in place. -/
def ColumnState : Type := String → Option (List TermValue)

/-- Write one published column into the shared frame (`fm_df[column] = result`,
line 754). -/
def setColumn (s : ColumnState) (c : String) (v : List TermValue) :
    ColumnState :=
  fun c' => if c' = c then some v else s c'

/-- Lines 752-754: pop `(column, result)` pairs off the result queue in some
order and write each into the shared frame. -/
def mergeResults (init : ColumnState) (results : List (String × List TermValue)) :
    ColumnState :=
  results.foldl (fun s r => setColumn s r.1 r.2) init

/-- The shared frame before any merge: every term column still holds its
placeholder. -/
def emptyColumns : ColumnState := fun _ => none

/-- Outcomes of the worker-pool stage as a whole. The merge of lines 752-754
runs only after `task_q.join()` (line 750) returns; `blocked` is the state in
which the join never returns because some worker died before calling
`task_done` (line 723). `aborted` — termination of the stage with an error —
is listed because the spec asserts it, but no code path produces it. -/
inductive StageOutcome where
  | merged (cols : ColumnState)
  | blocked
  | aborted

/-- Whether a task completes: the worker of lines 714-723 reaches `task_done`
only if `func` succeeded on every row (otherwise the exception kills the
thread between `get_nowait` and `task_done`). -/
def taskCompletes (t : FmTask) : Bool :=
  (deriveColumn t).toOption.isSome

/-- The worker-pool stage (lines 697-756 up to the merge): every enqueued task
is claimed by some worker; `task_q.join()` returns only when every task was
marked done, so the merge loop runs exactly when every task completed —
otherwise the main thread stays blocked on the join forever and nothing is
ever merged. -/
def termStage (tasks : List FmTask) : StageOutcome :=
  if tasks.all taskCompletes then
    .merged (mergeResults emptyColumns
      (tasks.map (fun t => (t.column, (deriveColumn t).toOption.getD []))))
  else .blocked

/-- The merged values of one column in a stage outcome (`none`: the column was
never merged). -/
def mergedColumn (o : StageOutcome) (c : String) : Option (List TermValue) :=
  match o with
  | .merged s => s c
  | _ => none

/-- One worker's run loop (lines 714-723) with the stop flag's set-time made
explicit: `stopAt` is the number of row computations after which the external
SIGINT handler (lines 725-736) has set the flag; the loop reads the flag ONLY
at the top of the `while` (line 715), and the `apply` of line 721 computes
every row of the claimed column with no further flag reads. Returns the total
number of row computations performed and the published (column, result)
pairs, given the tasks this worker will claim in order. -/
def workerRun (stopAt : Nat) :
    List FmTask → Nat → List (String × List TermValue) →
      Nat × List (String × List TermValue)
  | tasks, elapsed, pub =>
    if stopAt ≤ elapsed then (elapsed, pub)
    else
      match tasks with
      | [] => (elapsed, pub)
      | t :: rest =>
        workerRun stopAt rest (elapsed + t.fm.length)
          (pub ++ [(t.column, (deriveColumn t).toOption.getD [])])

end Oasis


namespace Oasis

/-- The ascending id sequence `start+1, start+2, ..., start+n` minted by the
item counter. -/
def idSeq (start : Int) : Nat → List Int
  | 0 => []
  | n + 1 => (start + 1) :: idSeq (start + 1) n

theorem idSeq_succ (s : Int) (n : Nat) :
    idSeq s (n + 1) = (s + 1) :: idSeq (s + 1) n := rfl

theorem idSeq_length (s : Int) (n : Nat) : (idSeq s n).length = n := by
  induction n generalizing s with
  | zero => rfl
  | succ n ih => simp [idSeq, ih]

theorem idSeq_append (s : Int) (m n : Nat) :
    idSeq s m ++ idSeq (s + m) n = idSeq s (m + n) := by
  induction m generalizing s with
  | zero => simp [idSeq]
  | succ m ih =>
    rw [idSeq_succ, Nat.succ_add, idSeq_succ, List.cons_append]
    rw [show s + ((m + 1 : Nat) : Int) = (s + 1) + (m : Int) by push_cast; ring]
    rw [ih (s + 1)]

theorem idSeq_get (s : Int) (n : Nat) :
    ∀ (j : Nat) (hj : j < (idSeq s n).length),
      (idSeq s n).get ⟨j, hj⟩ = s + (j + 1) := by
  induction n generalizing s with
  | zero => intro j hj; simp [idSeq] at hj
  | succ n ih =>
    intro j hj
    cases j with
    | zero => simp [idSeq]
    | succ j =>
      simp only [idSeq, List.get_cons_succ]
      rw [ih (s + 1) j (by simpa [idSeq] using hj)]
      push_cast
      ring

/-- The per-field TIV positivity predicate counted by `posPairCountRow`. -/
def fieldPos (c : CanExpItem) (f : TivField) : Bool :=
  tivPositive ((c.cell (pyLower f.profileElementName)).getD none)

theorem emitForFields_ok (c : CanExpItem) (k : KeysItem) :
    ∀ (fs : List TivField) (n : Int) (items : List GulItem),
      emitForFields c k fs n = .ok items →
      items.map (fun g => g.item_id) = idSeq n items.length ∧
      (∀ g ∈ items, g.coverage_id = g.item_id ∧ g.group_id = g.item_id ∧
        g.canloc_id = c.row_id ∧ 0 < g.tiv) ∧
      items.length = fs.countP (fieldPos c) := by
  intro fs
  induction fs with
  | nil =>
    intro n items h
    simp only [emitForFields] at h
    cases h
    simp [idSeq]
  | cons f fs ih =>
    intro n items h
    simp only [emitForFields] at h
    split at h
    · cases h
    · next hc =>
      obtain ⟨hids, hmem, hlen⟩ := ih _ items h
      refine ⟨hids, hmem, ?_⟩
      rw [List.countP_cons, hlen]
      simp [fieldPos, hc, tivPositive]
    · next tv hc =>
      split at h
      · next hp =>
        cases he : emitForFields c k fs (n + 1) with
        | error e =>
          rw [he] at h
          simp [Except.map] at h
        | ok rest =>
          rw [he] at h
          simp only [Except.map, Except.ok.injEq] at h
          obtain ⟨hids, hmem, hlen⟩ := ih (n + 1) rest he
          subst h
          refine ⟨?_, ?_, ?_⟩
          · simp only [List.map_cons, List.length_cons, hids]
            rw [idSeq_succ]
          · intro g hg
            rcases List.mem_cons.mp hg with hg | hg
            · subst hg; exact ⟨rfl, rfl, rfl, hp⟩
            · exact hmem g hg
          · rw [List.length_cons, List.countP_cons, hlen]
            simp [fieldPos, hc, tivPositive, hp]
      · next hp =>
        obtain ⟨hids, hmem, hlen⟩ := ih _ items h
        refine ⟨hids, hmem, ?_⟩
        rw [List.countP_cons, hlen]
        simp [fieldPos, hc, tivPositive, hp]

theorem loadGulRows_ok (canexp : List CanExpItem) (tf : List TivField) :
    ∀ (ks : List KeysItem) (n : Int) (items : List GulItem),
      loadGulRows canexp tf ks n = .ok items →
      items.map (fun g => g.item_id) = idSeq n items.length ∧
      (∀ g ∈ items, g.coverage_id = g.item_id ∧ g.group_id = g.item_id ∧
        0 < g.tiv) ∧
      items.length = (ks.map (posPairCountRow canexp tf)).sum := by
  intro ks
  induction ks with
  | nil =>
    intro n items h
    simp only [loadGulRows] at h
    cases h
    simp [idSeq]
  | cons k ks ih =>
    intro n items h
    simp only [loadGulRows] at h
    split at h
    · cases h
    · next c hf =>
      split at h
      · cases h
      · next these he =>
        cases hr : loadGulRows canexp tf ks (n + these.length) with
        | error e =>
          rw [hr] at h
          simp [Except.map] at h
        | ok rest =>
          rw [hr] at h
          simp only [Except.map, Except.ok.injEq] at h
          obtain ⟨eids, emem, elen⟩ := emitForFields_ok c k _ n these he
          obtain ⟨rids, rmem, rlen⟩ := ih (n + these.length) rest hr
          subst h
          refine ⟨?_, ?_, ?_⟩
          · rw [List.map_append, eids, rids, List.length_append,
              idSeq_append]
          · intro g hg
            rcases List.mem_append.mp hg with hg | hg
            · obtain ⟨h1, h2, _, h4⟩ := emem g hg; exact ⟨h1, h2, h4⟩
            · exact rmem g hg
          · rw [List.length_append, List.map_cons, List.sum_cons, elen, rlen]
            congr 1
            simp only [posPairCountRow, hf]
            rfl

end Oasis

namespace Oasis

theorem idSeq_getElem (s : Int) : ∀ (n j : Nat), j < n →
    (idSeq s n)[j]? = some (s + (j + 1)) := by
  intro n
  induction n generalizing s with
  | zero => intro j hj; omega
  | succ n ih =>
    intro j hj
    cases j with
    | zero => simp [idSeq]
    | succ j =>
      simp only [idSeq, List.getElem?_cons_succ]
      rw [ih (s + 1) j (by omega)]
      congr 1
      push_cast
      ring

theorem emitForFields_isOk (c : CanExpItem) (k : KeysItem) :
    ∀ (fs : List TivField) (n : Int),
      (∀ f ∈ fs, (c.cell (pyLower f.profileElementName)).isSome = true) →
      ∃ items, emitForFields c k fs n = .ok items := by
  intro fs
  induction fs with
  | nil => intro n _; exact ⟨[], rfl⟩
  | cons f fs ih =>
    intro n h
    have hc : (c.cell (pyLower f.profileElementName)).isSome = true :=
      h f (List.mem_cons_self f fs)
    have hfs : ∀ g ∈ fs, (c.cell (pyLower g.profileElementName)).isSome = true :=
      fun g hg => h g (List.mem_cons_of_mem f hg)
    cases hcell : c.cell (pyLower f.profileElementName) with
    | none => rw [hcell] at hc; cases hc
    | some v =>
      cases v with
      | none =>
        obtain ⟨items, hi⟩ := ih n hfs
        exact ⟨items, by simp only [emitForFields, hcell]; exact hi⟩
      | some tv =>
        by_cases hp : 0 < tv
        · obtain ⟨rest, hr⟩ := ih (n + 1) hfs
          simp only [emitForFields, hcell, if_pos hp, hr, Except.map]
          exact ⟨_, rfl⟩
        · obtain ⟨items, hi⟩ := ih n hfs
          refine ⟨items, ?_⟩
          simp only [emitForFields, hcell, if_neg hp]
          exact hi

theorem loadGulRows_error (canexp : List CanExpItem) (tf : List TivField) :
    ∀ (ks : List KeysItem) (n : Int),
      (∀ c ∈ canexp, ∀ f ∈ tf,
        (c.cell (pyLower f.profileElementName)).isSome = true) →
      (∃ k ∈ ks, ∀ c ∈ canexp, ¬c.row_id = k.locid) →
      ∃ k ∈ ks, (∀ c ∈ canexp, ¬c.row_id = k.locid) ∧
        loadGulRows canexp tf ks n = .error (consistencyErrorMsg k) := by
  intro ks
  induction ks with
  | nil => intro n _ h; obtain ⟨k, hk, _⟩ := h; cases hk
  | cons k ks ih =>
    intro n hcols h
    cases hf : canexp.find? (fun c => c.row_id = k.locid) with
    | none =>
      have hnm : ∀ c ∈ canexp, ¬c.row_id = k.locid := by
        intro c hc
        have := List.find?_eq_none.mp hf c hc
        simpa using this
      exact ⟨k, List.mem_cons_self k ks, hnm,
        by simp only [loadGulRows, hf]⟩
    | some c =>
      have hcmem : c ∈ canexp := List.mem_of_find?_eq_some hf
      have hcrow : c.row_id = k.locid := by
        have := List.find?_some hf
        simpa using this
      obtain ⟨k1, hk1, hnm1⟩ := h
      have hk1' : k1 ∈ ks := by
        rcases List.mem_cons.mp hk1 with h | h
        · exact absurd hcrow (h ▸ hnm1 c hcmem)
        · exact h
      obtain ⟨these, he⟩ := emitForFields_isOk c k
        (tf.filter (fun f => f.coverageTypeID = k.coveragetype)) n
        (fun f hf' => hcols c hcmem f (List.mem_of_mem_filter hf'))
      obtain ⟨k2, hk2, hnm2, hrec⟩ :=
        ih (n + these.length) hcols ⟨k1, hk1', hnm1⟩
      refine ⟨k2, List.mem_cons_of_mem k hk2, hnm2, ?_⟩
      simp only [loadGulRows, hf, he, hrec, Except.map]

/-- C7: a lookup row whose `loc_id` matches no canonical exposure `row_id`
makes `load_gul_master_data_frame` raise the consistency error naming the
offending lookup row and return no GUL table; in particular an unmatched
first lookup row aborts the run before any `GulItem` is emitted. The
hypothesis `hcols` says every canonical row carries every profile TIV column
(a missing column would be a different, earlier `KeyError`). -/
theorem gul_missing_join_target_aborts (canexp : List CanExpItem)
    (tf : List TivField) (keys : List KeysItem)
    (hcols : ∀ c ∈ canexp, ∀ f ∈ tf,
      (c.cell (pyLower f.profileElementName)).isSome = true)
    (h : ∃ k ∈ keys, ∀ c ∈ canexp, ¬c.row_id = k.locid) :
    (∃ k ∈ keys, (∀ c ∈ canexp, ¬c.row_id = k.locid) ∧
      load_gul_master_data_frame canexp tf keys =
        .error (consistencyErrorMsg k)) ∧
    (∀ (k0 : KeysItem) (ks : List KeysItem), keys = k0 :: ks →
      (∀ c ∈ canexp, ¬c.row_id = k0.locid) →
      load_gul_master_data_frame canexp tf keys =
        .error (consistencyErrorMsg k0)) := by
  constructor
  · exact loadGulRows_error canexp tf keys 0 hcols h
  · intro k0 ks hkeys hnm
    subst hkeys
    have hf : canexp.find? (fun c => c.row_id = k0.locid) = none := by
      apply List.find?_eq_none.mpr
      intro c hc
      simpa using hnm c hc
    simp only [load_gul_master_data_frame, loadGulRows, hf]

/-- C8: on a successful run the emitted item ids are exactly `1, 2, ..., N`
in emission order (lookup rows scanned in order, matching TIV fields scanned
in order within a row), and every item's `coverage_id` and `group_id` equal
its `item_id`. -/
theorem gul_item_ids_contiguous_positional (canexp : List CanExpItem)
    (tf : List TivField) (keys : List KeysItem) (items : List GulItem)
    (h : load_gul_master_data_frame canexp tf keys = .ok items) :
    (∀ (j : Nat) (hj : j < items.length),
      (items.get ⟨j, hj⟩).item_id = (j : Int) + 1) ∧
    (∀ g ∈ items, g.coverage_id = g.item_id ∧ g.group_id = g.item_id) := by
  obtain ⟨hids, hmem, _⟩ := loadGulRows_ok canexp tf keys 0 items h
  refine ⟨?_, fun g hg => ⟨(hmem g hg).1, (hmem g hg).2.1⟩⟩
  intro j hj
  have e1 : (items.map (fun g => g.item_id))[j]? =
      (idSeq 0 items.length)[j]? := by rw [hids]
  rw [idSeq_getElem 0 items.length j hj, List.getElem?_map,
    List.getElem?_eq_getElem (show j < items.length from hj)] at e1
  simp only [Option.map_some', Option.some.injEq] at e1
  have e2 : (items.get ⟨j, hj⟩).item_id = items[j].item_id := rfl
  omega

/-- C5: on a successful run, one `GulItem` is emitted per scanned
(lookup row, matching TIV field) pair with a strictly positive TIV value and
none for a non-positive (or null) value: the item count equals the count of
positive pairs, and every emitted item carries a strictly positive TIV. -/
theorem gul_item_count_eq_positive_pairs (canexp : List CanExpItem)
    (tf : List TivField) (keys : List KeysItem) (items : List GulItem)
    (h : load_gul_master_data_frame canexp tf keys = .ok items) :
    items.length = posPairCount canexp tf keys ∧
    ∀ g ∈ items, 0 < g.tiv := by
  obtain ⟨_, hmem, hlen⟩ := loadGulRows_ok canexp tf keys 0 items h
  exact ⟨hlen, fun g hg => (hmem g hg).2.2⟩

end Oasis

namespace Oasis

theorem presetBase_length (fls : List Int) (gul : List GulItem) :
    (presetBase fls gul).length = fls.length * gul.length := by
  induction fls with
  | nil => simp [presetBase]
  | cons l ls ih =>
    simp only [presetBase, List.flatMap_cons, List.length_append,
      List.length_map, List.length_cons] at *
    rw [ih]
    ring

theorem maxLayer_eq_length (canacc : List CanAccItem) :
    maxLayer canacc = canacc.length := by
  unfold maxLayer layer_ids
  generalize canacc.length = n
  induction n with
  | zero => rfl
  | succ n ih =>
    rw [List.range'_concat, List.foldl_append]
    simp only [List.foldl_cons, List.foldl_nil]
    rw [ih]
    omega

theorem length_flatMap_const {α β : Type} (l : List α) (f : α → List β)
    (n : Nat) (h : ∀ a ∈ l, (f a).length = n) :
    (l.flatMap f).length = l.length * n := by
  induction l with
  | nil => simp
  | cons a l ih =>
    simp only [List.flatMap_cons, List.length_append, List.length_cons]
    rw [h a (List.mem_cons_self a l),
      ih (fun b hb => h b (List.mem_cons_of_mem a hb))]
    ring

theorem pythonTailSlice_length {α : Type} (xs : List α) (m : Nat)
    (hle : m ≤ xs.length) (h0 : m = 0 → xs.length = 0) :
    (pythonTailSlice xs m).length = m := by
  unfold pythonTailSlice
  split
  · next hm => rw [h0 hm, hm]
  · rw [List.length_drop]; omega

theorem presetData_length (fls : List Int) (gul : List GulItem)
    (canacc : List CanAccItem) (hL : 1 ≤ fls.length) :
    (presetData fls gul canacc).length =
      fls.length * gul.length + (canacc.length - 1) * gul.length := by
  have hts : (pythonTailSlice (presetBase fls gul) gul.length).length =
      gul.length := by
    apply pythonTailSlice_length
    · rw [presetBase_length]
      exact Nat.le_mul_of_pos_left gul.length hL
    · intro hm; rw [presetBase_length, hm, Nat.mul_zero]
  unfold presetData
  split
  · next h1 =>
    rw [maxLayer_eq_length] at h1
    rw [List.length_append, presetBase_length]
    congr 1
    rw [length_flatMap_const _ _ gul.length
      (fun a _ => by rw [List.length_map, hts]),
      List.length_drop]
    simp [layer_ids]
  · next h1 =>
    rw [maxLayer_eq_length] at h1
    rw [presetBase_length]
    have : canacc.length - 1 = 0 := by omega
    rw [this, Nat.zero_mul, Nat.add_zero]

/-- C1 (amended): the FM master table built by `load_fm_master_data_frame`
has `|FmLevelSet| * |GulItems| + (L - 1) * |GulItems|` rows — the full
level-by-item product for layer 1 plus, for each of the `L - 1` extra
layers, only `|GulItems|` replicated rows (line 667 replicates only the
last `len(gulm_df)` entries of `preset_data`, not the whole base), where
`L` is the number of rows of the canonical account table. -/
theorem fm_master_row_count (gul : List GulItem) (fls : List Int)
    (canacc : List CanAccItem) (rows : List FmRow) (hL : 1 ≤ fls.length)
    (h : load_fm_master_data_frame gul fls canacc = .ok rows) :
    rows.length =
      fls.length * gul.length + (canacc.length - 1) * gul.length := by
  unfold load_fm_master_data_frame at h
  split at h
  · cases h
  · simp only [Except.ok.injEq] at h
    subst h
    rw [List.length_map, presetData_length fls gul canacc hL]

/-- A one-item GUL table used as concrete input for the FM counterexamples. -/
def cexGulItem : GulItem :=
  { item_id := 1, canloc_id := 1, coverage_id := 1, tiv := 100,
    areaperil_id := 10, vulnerability_id := 20, group_id := 1,
    summary_id := 1, summaryset_id := 1 }

/-- A two-row account table with two distinct policy numbers. -/
def cexAcc2 : List CanAccItem := [{ policynum := "P1" }, { policynum := "P2" }]

/-- A two-row account table with a single (duplicated) policy number. -/
def cexAccDup : List CanAccItem := [{ policynum := "P1" }, { policynum := "P1" }]

/-- C1 counterexample: with 2 FM levels, 1 GUL item and a 2-row account table
(L = 2 distinct policy numbers), the FM table has 3 rows, not the
`|levels| * |items| * max(1, L) = 4` the claim demands. -/
theorem fm_master_row_count_claim_counterexample :
    (load_fm_master_data_frame [cexGulItem] [1, 2] cexAcc2).map List.length =
      .ok 3 ∧
    distinctPolicynums cexAcc2 = 2 ∧
    [(1 : Int), 2].length * [cexGulItem].length * max 1 2 = 4 ∧
    (3 : Nat) ≠ 4 := by
  refine ⟨rfl, ?_, ?_, ?_⟩ <;> decide

/-- Rows of the C1/C2 witness run. -/
def cexFmRows : List FmRow :=
  (load_fm_master_data_frame [cexGulItem] [1, 2] cexAcc2).toOption.getD []

theorem fm_master_row_count_witness :
    load_fm_master_data_frame [cexGulItem] [1, 2] cexAcc2 = .ok cexFmRows ∧
    cexFmRows.length =
      [(1 : Int), 2].length * [cexGulItem].length +
        (cexAcc2.length - 1) * [cexGulItem].length :=
  ⟨rfl,
    fm_master_row_count [cexGulItem] [1, 2] cexAcc2 cexFmRows (by decide)
      rfl⟩

end Oasis

namespace Oasis

theorem mem_presetBase {fls : List Int} {gul : List GulItem} {p : Preset}
    (hp : p ∈ presetBase fls gul) :
    p.layer_id = 1 ∧ p.level ∈ fls ∧ ∃ g ∈ gul, p.item_id = g.item_id ∧
      p.canloc_id = g.canloc_id ∧ p.tiv = g.tiv := by
  simp only [presetBase, List.mem_flatMap, List.mem_map] at hp
  obtain ⟨l, hl, g, hg, rfl⟩ := hp
  exact ⟨rfl, hl, g, hg, rfl, rfl, rfl⟩

theorem pythonTailSlice_subset {α : Type} (xs : List α) (m : Nat) :
    ∀ x ∈ pythonTailSlice xs m, x ∈ xs := by
  intro x hx
  unfold pythonTailSlice at hx
  split at hx
  · exact hx
  · exact List.mem_of_mem_drop hx

theorem tailSlice_presetBase_concat (fls' : List Int) (lv : Int)
    (gul : List GulItem) :
    pythonTailSlice (presetBase (fls' ++ [lv]) gul) gul.length =
      presetBase [lv] gul := by
  have hsplit : presetBase (fls' ++ [lv]) gul =
      presetBase fls' gul ++ presetBase [lv] gul := by
    unfold presetBase
    rw [List.flatMap_append]
  have hlen2 : (presetBase [lv] gul).length = gul.length := by
    rw [presetBase_length]
    simp
  by_cases hg : gul.length = 0
  · have hnil : gul = [] := List.length_eq_zero.mp hg
    subst hnil
    simp [pythonTailSlice, presetBase]
  · unfold pythonTailSlice
    rw [if_neg hg, hsplit]
    have h3 : (presetBase fls' gul ++ presetBase [lv] gul).length -
        gul.length = (presetBase fls' gul).length := by
      rw [List.length_append, hlen2]
      omega
    rw [h3, List.drop_left]

theorem indexOf_concat_self (fls' : List Int) (lv : Int)
    (hnd : (fls' ++ [lv]).Nodup) :
    (fls' ++ [lv]).indexOf lv = fls'.length := by
  have hnm : lv ∉ fls' := by
    intro hmem
    have hdisj := (List.nodup_append.mp hnd).2.2
    exact hdisj hmem (List.mem_singleton.mpr rfl)
  rw [List.indexOf_append_of_not_mem hnm, List.indexOf_cons_self]
  omega

theorem countP_extras_zero (block : List Preset) (ly : Nat) :
    ∀ lys : List Nat, ly ∉ lys →
      ((lys.flatMap (fun l => block.map
          (fun p => { p with layer_id := l }))).countP
        (fun p => p.layer_id = ly)) = 0 := by
  intro lys
  induction lys with
  | nil => intro _; rfl
  | cons l ls ih =>
    intro h
    rw [List.flatMap_cons, List.countP_append]
    have hl : ¬l = ly := fun he => h (he ▸ List.mem_cons_self l ls)
    have h1 : (block.map (fun p => { p with layer_id := l })).countP
        (fun p => p.layer_id = ly) = 0 := by
      rw [List.countP_map]
      apply List.countP_eq_zero.mpr
      intro p _
      simp [Function.comp, hl]
    rw [h1, ih (fun hm => h (List.mem_cons_of_mem l hm))]

theorem countP_extras (block : List Preset) (ly : Nat) :
    ∀ lys : List Nat, lys.Nodup → ly ∈ lys →
      ((lys.flatMap (fun l => block.map
          (fun p => { p with layer_id := l }))).countP
        (fun p => p.layer_id = ly)) = block.length := by
  intro lys
  induction lys with
  | nil => intro _ h; cases h
  | cons l ls ih =>
    intro hnd hmem
    rw [List.flatMap_cons, List.countP_append]
    by_cases hl : l = ly
    · subst hl
      have h1 : (block.map (fun p => { p with layer_id := l })).countP
          (fun p => p.layer_id = l) = block.length := by
        rw [List.countP_map]
        apply List.countP_eq_length.mpr
        intro p _
        simp [Function.comp]
      have h2 := countP_extras_zero block l ls
        ((List.nodup_cons.mp hnd).1)
      rw [h1, h2]
      omega
    · have h1 : (block.map (fun p => { p with layer_id := l })).countP
          (fun p => p.layer_id = ly) = 0 := by
        rw [List.countP_map]
        apply List.countP_eq_zero.mpr
        intro p _
        simp [Function.comp, hl]
      have hmem' : ly ∈ ls := by
        rcases List.mem_cons.mp hmem with h | h
        · exact absurd h.symm hl
        · exact h
      rw [h1, ih (List.nodup_cons.mp hnd).2 hmem', Nat.zero_add]

theorem load_fm_rows_eq (gul : List GulItem) (fls : List Int)
    (canacc : List CanAccItem) (rows : List FmRow)
    (h2 : 2 ≤ canacc.length)
    (h : load_fm_master_data_frame gul fls canacc = .ok rows) :
    rows = (presetBase fls gul ++
      ((layer_ids canacc).drop 1).flatMap (fun ly =>
        (pythonTailSlice (presetBase fls gul) gul.length).map
          (fun p : Preset => { p with layer_id := ly }))).map
      (toFmRow fls) := by
  unfold load_fm_master_data_frame at h
  split at h
  · cases h
  · simp only [Except.ok.injEq] at h
    subst h
    simp only [presetData]
    rw [if_pos (by rw [maxLayer_eq_length]; omega)]

end Oasis

namespace Oasis

theorem countP_layer_map (fl : List Int) (ps : List Preset) (ly : Nat) :
    (ps.map (toFmRow fl)).countP (fun r => r.layer_id = ly) =
      ps.countP (fun p => p.layer_id = ly) := by
  rw [List.countP_map]
  exact List.countP_congr (fun p _ => Iff.rfl)

theorem drop_one_range' (n : Nat) :
    (List.range' 1 n).drop 1 = List.range' 2 (n - 1) := by
  cases n with
  | zero => rfl
  | succ m => rw [List.range'_succ]; rfl

/-- C2 (amended): when the layer count `L` exceeds 1, layer expansion
replicates — once per layer `2..L` — ONLY the last `len(gulm_df)` entries of
`preset_data`, i.e. the base rows of the highest FM level (line 667 slices
`preset_data[-len(gulm_df):]`), not every layer-1 (level, item) base row:
every row with `layer_id ≥ 2` sits at the top level
(`level_id = |FmLevelSet|`), carries the `item_id`, `canloc_id` and `tiv` of
an existing GUL item unchanged, duplicates a layer-1 row with identical
level and fields, and each extra layer contributes exactly `|GulItems|`
rows; no new items are introduced. -/
theorem fm_layer_expansion_last_level (gul : List GulItem) (fls : List Int)
    (canacc : List CanAccItem) (rows : List FmRow)
    (hnd : fls.Nodup) (hne : fls ≠ [])
    (h2 : 2 ≤ canacc.length)
    (h : load_fm_master_data_frame gul fls canacc = .ok rows) :
    (∀ r ∈ rows, 2 ≤ r.layer_id →
      r.level_id = fls.length ∧
      (∃ g ∈ gul, r.item_id = g.item_id ∧ r.canloc_id = g.canloc_id ∧
        r.tiv = g.tiv) ∧
      ∃ b ∈ rows, b.layer_id = 1 ∧ b.item_id = r.item_id ∧
        b.level_id = r.level_id ∧ b.canloc_id = r.canloc_id ∧
        b.tiv = r.tiv) ∧
    (∀ ly : Nat, 2 ≤ ly → ly ≤ canacc.length →
      rows.countP (fun r => r.layer_id = ly) = gul.length) := by
  obtain ⟨fls', lv, rfl⟩ : ∃ fls' lv, fls = fls' ++ [lv] := by
    rcases List.eq_nil_or_concat fls with hnil | ⟨L, b, hc⟩
    · exact absurd hnil hne
    · exact ⟨L, b, by rw [hc, List.concat_eq_append]⟩
  have hrows := load_fm_rows_eq gul _ canacc rows h2 h
  have hts := tailSlice_presetBase_concat fls' lv gul
  rw [hts] at hrows
  constructor
  · intro r hr hlay
    rw [hrows] at hr
    obtain ⟨p, hp, rfl⟩ := List.mem_map.mp hr
    rcases List.mem_append.mp hp with hpb | hpe
    · exfalso
      have h1 : p.layer_id = 1 := (mem_presetBase hpb).1
      have h1' : (toFmRow (fls' ++ [lv]) p).layer_id = p.layer_id := rfl
      omega
    · obtain ⟨ly, hly, hpin⟩ := List.mem_flatMap.mp hpe
      obtain ⟨q, hq, rfl⟩ := List.mem_map.mp hpin
      obtain ⟨hqlay, hqlev, g, hg, hqi, hqc, hqt⟩ := mem_presetBase hq
      have hqlv : q.level = lv := by simpa using hqlev
      refine ⟨?_, ⟨g, hg, hqi, hqc, hqt⟩, ?_⟩
      · show (fls' ++ [lv]).indexOf q.level + 1 = (fls' ++ [lv]).length
        rw [hqlv, indexOf_concat_self fls' lv hnd, List.length_append]
        simp
      · refine ⟨toFmRow (fls' ++ [lv]) q, ?_, hqlay, rfl, rfl, rfl, rfl⟩
        rw [hrows]
        apply List.mem_map_of_mem
        apply List.mem_append_left
        unfold presetBase at hq ⊢
        rw [List.flatMap_append]
        exact List.mem_append_right _ hq
  · intro ly h2ly hlyn
    rw [hrows, countP_layer_map]
    have hbase : (presetBase (fls' ++ [lv]) gul).countP
        (fun p => p.layer_id = ly) = 0 := by
      apply List.countP_eq_zero.mpr
      intro p hp
      have h1 : p.layer_id = 1 := (mem_presetBase hp).1
      simp only [decide_eq_true_eq]
      omega
    have hnd2 : ((layer_ids canacc).drop 1).Nodup :=
      List.Nodup.sublist (List.drop_sublist 1 _)
        (List.nodup_range' 1 canacc.length)
    have hmem2 : ly ∈ (layer_ids canacc).drop 1 := by
      unfold layer_ids
      rw [drop_one_range']
      exact List.mem_range'.mpr ⟨ly - 2, by omega, by omega⟩
    rw [List.countP_append, hbase, countP_extras _ ly _ hnd2 hmem2,
      presetBase_length]
    simp

/-- C2 counterexample: with FM levels `[1, 2]`, one GUL item and a two-layer
program, the claim demands a replicated layer-2 row for EVERY layer-1
(level, item) base row — in particular one with `level_id = 1` — but the
built table has a (level 1, layer 1) base row and no (level 1, layer 2)
row at all. -/
theorem fm_layer_expansion_claim_counterexample :
    (load_fm_master_data_frame [cexGulItem] [1, 2] cexAcc2).map
      (fun rows =>
        (rows.countP (fun r => r.level_id = 1 ∧ r.layer_id = 1),
         rows.countP (fun r => r.level_id = 1 ∧ r.layer_id = 2))) =
      .ok (1, 0) := by
  rfl

theorem fm_layer_expansion_witness :
    load_fm_master_data_frame [cexGulItem] [1, 2] cexAcc2 = .ok cexFmRows ∧
    cexFmRows.countP (fun r => r.layer_id = 2) = 1 :=
  ⟨rfl,
    (fm_layer_expansion_last_level [cexGulItem] [1, 2] cexAcc2 cexFmRows
      (by decide) (by decide) (by decide) rfl).2 2 (by decide) (by decide)⟩

end Oasis

namespace Oasis

/-- C3 (amended): the layer ids used by `load_fm_master_data_frame` are
`1..L` where `L = max(layer_ids)` equals the NUMBER OF ROWS of the canonical
account table — line 662 ranges over `len(canacc_df.policynum.values)`,
which counts every row, not distinct policy numbers — and on success every
emitted row's `layer_id` lies in `1..L`. -/
theorem fm_layer_count_is_row_count (gul : List GulItem) (fls : List Int)
    (canacc : List CanAccItem) (rows : List FmRow)
    (h : load_fm_master_data_frame gul fls canacc = .ok rows) :
    maxLayer canacc = canacc.length ∧
    ∀ r ∈ rows, 1 ≤ r.layer_id ∧ r.layer_id ≤ canacc.length := by
  refine ⟨maxLayer_eq_length canacc, ?_⟩
  intro r hr
  unfold load_fm_master_data_frame at h
  split at h
  · cases h
  · next hn =>
    simp only [Except.ok.injEq] at h
    subst h
    obtain ⟨p, hp, rfl⟩ := List.mem_map.mp hr
    have hlay : (toFmRow fls p).layer_id = p.layer_id := rfl
    simp only [presetData] at hp
    have hbase_bound : ∀ q : Preset, q ∈ presetBase fls gul →
        1 ≤ q.layer_id ∧ q.layer_id ≤ canacc.length := by
      intro q hq
      have h1 : q.layer_id = 1 := (mem_presetBase hq).1
      omega
    split at hp
    · rcases List.mem_append.mp hp with hpb | hpe
      · rw [hlay]; exact hbase_bound p hpb
      · obtain ⟨ly, hly, hpin⟩ := List.mem_flatMap.mp hpe
        obtain ⟨q, _, rfl⟩ := List.mem_map.mp hpin
        have hly2 : ly ∈ layer_ids canacc :=
          List.mem_of_mem_drop hly
        unfold layer_ids at hly2
        obtain ⟨i, hi, rfl⟩ := List.mem_range'.mp hly2
        rw [hlay]
        simp only
        omega
    · rw [hlay]; exact hbase_bound p hp

/-- Rows of the C3 witness run: one item, one level, duplicated-policy
account table. -/
def cexFmRowsDup : List FmRow :=
  (load_fm_master_data_frame [cexGulItem] [1] cexAccDup).toOption.getD []

/-- C3 counterexample: a two-row account table whose rows carry the SAME
policy number yields layer ids `[1, 2]` (layer count 2) although there is
only 1 distinct policy number, and the built FM table indeed contains a
`layer_id = 2` row. -/
theorem fm_layer_count_claim_counterexample :
    maxLayer cexAccDup = 2 ∧ distinctPolicynums cexAccDup = 1 ∧
    (load_fm_master_data_frame [cexGulItem] [1] cexAccDup).map
      (List.map (fun r => r.layer_id)) = .ok [1, 2] ∧
    (2 : Nat) ≠ 1 := by
  refine ⟨?_, ?_, rfl, ?_⟩ <;> decide

theorem fm_layer_count_witness :
    load_fm_master_data_frame [cexGulItem] [1] cexAccDup =
      .ok cexFmRowsDup ∧
    maxLayer cexAccDup = cexAccDup.length :=
  ⟨rfl,
    (fm_layer_count_is_row_count [cexGulItem] [1] cexAccDup cexFmRowsDup
      rfl).1⟩

end Oasis

namespace Oasis

/-- Concrete canonical exposures used by the GUL witnesses. -/
def wCanexp : List CanExpItem :=
  [{ row_id := 1, fields := [("wscv1val", some 100), ("wscv2val", some 0)] },
   { row_id := 2, fields := [("wscv1val", some 50), ("wscv2val", some 7)] }]

/-- Concrete TIV profile fields used by the GUL witnesses. -/
def wTivFields : List TivField :=
  [{ coverageTypeID := 1, profileElementName := "wscv1val" },
   { coverageTypeID := 2, profileElementName := "wscv2val" }]

/-- Concrete keys rows used by the GUL witnesses. -/
def wKeys : List KeysItem :=
  [{ locid := 1, coveragetype := 1, areaperilid := 10, vulnerabilityid := 20 },
   { locid := 2, coveragetype := 1, areaperilid := 11, vulnerabilityid := 21 }]

/-- The GUL items of the witness run. -/
def wGulItems : List GulItem :=
  (load_gul_master_data_frame wCanexp wTivFields wKeys).toOption.getD []

/-- A keys row whose `locid` matches no canonical `row_id`. -/
def wKeyBad : KeysItem :=
  { locid := 3, coveragetype := 1, areaperilid := 10, vulnerabilityid := 20 }

theorem gul_missing_join_witness :
    load_gul_master_data_frame wCanexp wTivFields [wKeyBad] =
      .error (consistencyErrorMsg wKeyBad) := by
  have h := gul_missing_join_target_aborts wCanexp wTivFields [wKeyBad]
    (by decide) ⟨wKeyBad, by decide, by decide⟩
  exact h.2 wKeyBad [] rfl (by decide)

theorem gul_item_ids_witness :
    load_gul_master_data_frame wCanexp wTivFields wKeys = .ok wGulItems ∧
    (wGulItems.get ⟨0, by decide⟩).item_id = ((0 : Nat) : Int) + 1 :=
  ⟨rfl,
    (gul_item_ids_contiguous_positional wCanexp wTivFields wKeys wGulItems
      rfl).1 0 (by decide)⟩

theorem gul_item_count_witness :
    load_gul_master_data_frame wCanexp wTivFields wKeys = .ok wGulItems ∧
    wGulItems.length = posPairCount wCanexp wTivFields wKeys :=
  ⟨rfl,
    (gul_item_count_eq_positive_pairs wCanexp wTivFields wKeys wGulItems
      rfl).1⟩

end Oasis

namespace Oasis

theorem mem_firstSeen {α : Type} [DecidableEq α] (a : α) :
    ∀ l : List α, a ∈ firstSeen l ↔ a ∈ l := by
  intro l
  induction l using firstSeen.induct with
  | case1 => simp [firstSeen]
  | case2 t ts ih =>
    rw [firstSeen]
    simp only [List.mem_cons, ih, List.mem_filter]
    constructor
    · rintro (h | ⟨h, _⟩)
      · exact Or.inl h
      · exact Or.inr h
    · rintro (h | h)
      · exact Or.inl h
      · by_cases he : a = t
        · exact Or.inl he
        · exact Or.inr ⟨h, by simpa using he⟩

theorem nodup_firstSeen {α : Type} [DecidableEq α] :
    ∀ l : List α, (firstSeen l).Nodup := by
  intro l
  induction l using firstSeen.induct with
  | case1 => simp [firstSeen]
  | case2 t ts ih =>
    rw [firstSeen]
    refine List.nodup_cons.mpr ⟨?_, ih⟩
    intro hmem
    have h1 := (mem_firstSeen t _).mp hmem
    have h2 := (List.mem_filter.mp h1).2
    simp at h2

theorem firstSeen_append_cons {α : Type} [DecidableEq α] (a : α) :
    ∀ (l1 l2 : List α), a ∉ l1 →
      ∃ tail, firstSeen (l1 ++ a :: l2) = firstSeen l1 ++ a :: tail := by
  intro l1
  induction l1 using firstSeen.induct with
  | case1 =>
    intro l2 _
    refine ⟨firstSeen (l2.filter (fun u => u ≠ a)), ?_⟩
    rw [List.nil_append, firstSeen, firstSeen, List.nil_append]
  | case2 t ts ih =>
    intro l2 hmem
    have hat : ¬a = t := fun h => hmem (h ▸ List.mem_cons_self t ts)
    have hats : a ∉ ts := fun h => hmem (List.mem_cons_of_mem t h)
    have hfil : a ∉ ts.filter (fun u => u ≠ t) :=
      fun h => hats (List.mem_filter.mp h).1
    obtain ⟨tail, ht⟩ := ih (l2.filter (fun u => u ≠ t)) hfil
    refine ⟨tail, ?_⟩
    rw [List.cons_append, firstSeen, List.filter_append,
      List.filter_cons_of_pos (by simpa using hat), ht, firstSeen,
      List.cons_append]

theorem firstSeen_concat {α : Type} [DecidableEq α] (a : α) :
    ∀ l1 : List α, a ∉ l1 → firstSeen (l1 ++ [a]) = firstSeen l1 ++ [a] := by
  intro l1
  induction l1 using firstSeen.induct with
  | case1 =>
    intro _
    rw [List.nil_append, firstSeen, firstSeen, List.filter_nil, firstSeen,
      List.nil_append]
  | case2 t ts ih =>
    intro hmem
    have hat : ¬a = t := fun h => hmem (h ▸ List.mem_cons_self t ts)
    have hats : a ∉ ts := fun h => hmem (List.mem_cons_of_mem t h)
    have hfil : a ∉ ts.filter (fun u => u ≠ t) :=
      fun h => hats (List.mem_filter.mp h).1
    rw [List.cons_append, firstSeen, List.filter_append,
      List.filter_cons_of_pos (by simpa using hat), List.filter_nil,
      ih hfil, firstSeen, List.cons_append]

theorem indexOfFirst_getElem? {α : Type} [DecidableEq α] :
    ∀ (l : List α) (a : α), a ∈ l → l[indexOfFirst l a]? = some a := by
  intro l
  induction l with
  | nil => intro a h; cases h
  | cons b bs ih =>
    intro a h
    unfold indexOfFirst
    by_cases hab : a = b
    · rw [if_pos hab, hab]
      simp
    · rw [if_neg hab]
      have hmem : a ∈ bs := by
        rcases List.mem_cons.mp h with h1 | h1
        · exact absurd h1 hab
        · exact h1
      rw [List.getElem?_cons_succ]
      exact ih a hmem

theorem indexOfFirst_lt_length {α : Type} [DecidableEq α] :
    ∀ (l : List α) (a : α), a ∈ l → indexOfFirst l a < l.length := by
  intro l
  induction l with
  | nil => intro a h; cases h
  | cons b bs ih =>
    intro a h
    unfold indexOfFirst
    by_cases hab : a = b
    · rw [if_pos hab]
      simp
    · rw [if_neg hab]
      have hmem : a ∈ bs := by
        rcases List.mem_cons.mp h with h1 | h1
        · exact absurd h1 hab
        · exact h1
      have := ih a hmem
      simp only [List.length_cons]
      omega

theorem indexOfFirst_inj {α : Type} [DecidableEq α] (l : List α) (a b : α)
    (ha : a ∈ l) (hb : b ∈ l)
    (h : indexOfFirst l a = indexOfFirst l b) : a = b := by
  have h1 := indexOfFirst_getElem? l a ha
  have h2 := indexOfFirst_getElem? l b hb
  rw [h, h2] at h1
  injection h1 with h1
  exact h1.symm

theorem indexOfFirst_append_not_mem {α : Type} [DecidableEq α] (a : α) :
    ∀ (l1 l2 : List α), a ∉ l1 →
      indexOfFirst (l1 ++ a :: l2) a = l1.length := by
  intro l1
  induction l1 with
  | nil =>
    intro l2 _
    simp [indexOfFirst]
  | cons b bs ih =>
    intro l2 h
    have hab : ¬a = b := fun he => h (he ▸ List.mem_cons_self b bs)
    rw [List.cons_append]
    unfold indexOfFirst
    rw [if_neg hab, ih l2 (fun hm => h (List.mem_cons_of_mem b hm))]
    simp

/-- C6: the policy-TC grouper (modelled from the spec: `get_policytc_id`
lives in `oasislmf.utils.fm`, outside this source tree) runs after the term
columns are fully populated (line 756 follows the merge of lines 752-754)
and scans rows in table order: two rows receive the same `policytc_id` iff
their term 5-tuples are equal; a row whose tuple has not occurred before it
is assigned the next ascending id — 1 plus the number of distinct tuples
seen strictly before it — so ids start at 1 and stay within
`1..#distinct tuples`; the assignment is a pure function of the row list,
hence deterministic for a fixed input row ordering. -/
theorem policytc_grouping (rows : List FmRow) :
    (∀ (i j : Nat) (hi : i < rows.length) (hj : j < rows.length),
      get_policytc_id rows i = get_policytc_id rows j ↔
        (rows[i]).termTuple = (rows[j]).termTuple) ∧
    (∀ (i : Nat) (hi : i < rows.length),
      (rows[i]).termTuple ∉ (rows.take i).map FmRow.termTuple →
      get_policytc_id rows i =
        (firstSeen ((rows.take i).map FmRow.termTuple)).length + 1) ∧
    (∀ (i : Nat), i < rows.length →
      1 ≤ get_policytc_id rows i ∧
      get_policytc_id rows i ≤
        (firstSeen (rows.map FmRow.termTuple)).length) := by
  have hid : ∀ (i : Nat) (hi : i < rows.length),
      get_policytc_id rows i =
        indexOfFirst (firstSeen (rows.map FmRow.termTuple))
          (rows[i]).termTuple + 1 := by
    intro i hi
    unfold get_policytc_id
    rw [List.getElem?_eq_getElem hi]
  have hmem : ∀ (i : Nat) (hi : i < rows.length),
      (rows[i]).termTuple ∈ firstSeen (rows.map FmRow.termTuple) := by
    intro i hi
    rw [mem_firstSeen]
    exact List.mem_map_of_mem FmRow.termTuple (List.getElem_mem hi)
  refine ⟨?_, ?_, ?_⟩
  · intro i j hi hj
    rw [hid i hi, hid j hj]
    constructor
    · intro h
      exact indexOfFirst_inj _ _ _ (hmem i hi) (hmem j hj) (by omega)
    · intro h
      rw [h]
  · intro i hi hnew
    rw [hid i hi]
    have h1 : rows.take i ++ rows[i] :: rows.drop (i + 1) = rows := by
      rw [List.getElem_cons_drop, List.take_append_drop]
    have hsplit : rows.map FmRow.termTuple =
        (rows.take i).map FmRow.termTuple ++
          (rows[i]).termTuple :: (rows.drop (i + 1)).map FmRow.termTuple := by
      calc rows.map FmRow.termTuple
          = (rows.take i ++ rows[i] :: rows.drop (i + 1)).map
              FmRow.termTuple := by rw [h1]
        _ = (rows.take i).map FmRow.termTuple ++
              (rows[i]).termTuple ::
                (rows.drop (i + 1)).map FmRow.termTuple := by
            rw [List.map_append, List.map_cons]
    obtain ⟨tail, htail⟩ := firstSeen_append_cons
      (rows[i]).termTuple ((rows.take i).map FmRow.termTuple)
      ((rows.drop (i + 1)).map FmRow.termTuple) hnew
    rw [hsplit, htail, indexOfFirst_append_not_mem _ _ _
      (fun hc => hnew ((mem_firstSeen _ _).mp hc))]
  · intro i hi
    rw [hid i hi]
    have hlt := indexOfFirst_lt_length _ _ (hmem i hi)
    omega

/-- Concrete FM rows with a repeated and a distinct term tuple, exercising
the policy-TC witness. -/
def wTcRows : List FmRow :=
  [{ item_id := 1, canloc_id := 1, level_id := 1, layer_id := 1, agg_id := 1,
     policytc_id := 0, deductible := 5, limit := 10, share := 0,
     deductible_type := "B", calcrule_id := 2, tiv := 100 },
   { item_id := 2, canloc_id := 2, level_id := 1, layer_id := 1, agg_id := 1,
     policytc_id := 0, deductible := 0, limit := 0, share := 0,
     deductible_type := "B", calcrule_id := 12, tiv := 50 },
   { item_id := 3, canloc_id := 3, level_id := 1, layer_id := 1, agg_id := 1,
     policytc_id := 0, deductible := 5, limit := 10, share := 0,
     deductible_type := "B", calcrule_id := 2, tiv := 70 }]

theorem policytc_grouping_witness :
    (get_policytc_id wTcRows 0 = get_policytc_id wTcRows 2 ↔
      (wTcRows.get ⟨0, by decide⟩).termTuple =
        (wTcRows.get ⟨2, by decide⟩).termTuple) ∧
    get_policytc_id wTcRows 1 =
      (firstSeen ((wTcRows.take 1).map FmRow.termTuple)).length + 1 :=
  ⟨(policytc_grouping wTcRows).1 0 2 (by decide) (by decide),
    (policytc_grouping wTcRows).2.1 1 (by decide) (by decide)⟩

end Oasis

namespace Oasis

/-- Association lookup of a published column by name in the result queue's
pop order. -/
def lookupColumn : List (String × List TermValue) → String →
    Option (List TermValue)
  | [], _ => none
  | r :: rs, c => if r.1 = c then some r.2 else lookupColumn rs c

theorem lookupColumn_eq_none_iff (c : String) :
    ∀ rs : List (String × List TermValue),
      lookupColumn rs c = none ↔ c ∉ rs.map Prod.fst := by
  intro rs
  induction rs with
  | nil => simp [lookupColumn]
  | cons r rs ih =>
    unfold lookupColumn
    by_cases hc : r.1 = c
    · rw [if_pos hc]
      simp [hc]
    · rw [if_neg hc]
      simp only [List.map_cons, List.mem_cons, ih]
      constructor
      · intro h hcc
        rcases hcc with hcc | hcc
        · exact hc hcc.symm
        · exact h hcc
      · intro h hcc
        exact h (Or.inr hcc)

theorem lookupColumn_eq_some_of_mem (c : String) (v : List TermValue) :
    ∀ rs : List (String × List TermValue),
      (rs.map Prod.fst).Nodup → (c, v) ∈ rs →
      lookupColumn rs c = some v := by
  intro rs
  induction rs with
  | nil => intro _ h; cases h
  | cons r rs ih =>
    intro hnd hm
    have hnd0 := hnd
    rw [List.map_cons] at hnd0
    have hnd' := List.nodup_cons.mp hnd0
    have hcons : lookupColumn (r :: rs) c =
        if r.1 = c then some r.2 else lookupColumn rs c := rfl
    rw [hcons]
    rcases List.mem_cons.mp hm with hm | hm
    · rw [← hm]
      simp
    · have hc : ¬r.1 = c := by
        intro he
        exact hnd'.1 (he ▸ (List.mem_map_of_mem Prod.fst hm))
      rw [if_neg hc]
      exact ih hnd'.2 hm

theorem mem_of_lookupColumn (c : String) (v : List TermValue) :
    ∀ rs : List (String × List TermValue),
      lookupColumn rs c = some v → (c, v) ∈ rs := by
  intro rs
  induction rs with
  | nil => intro h; cases h
  | cons r rs ih =>
    have hcons : lookupColumn (r :: rs) c =
        if r.1 = c then some r.2 else lookupColumn rs c := rfl
    rw [hcons]
    by_cases hc : r.1 = c
    · rw [if_pos hc]
      intro h
      injection h with h
      refine List.mem_cons.mpr (Or.inl ?_)
      rw [← hc, ← h]
    · rw [if_neg hc]
      intro h
      exact List.mem_cons_of_mem r (ih h)

theorem lookupColumn_perm {l₁ l₂ : List (String × List TermValue)}
    (h : l₁.Perm l₂) (hnd₂ : (l₂.map Prod.fst).Nodup) (c : String) :
    lookupColumn l₁ c = lookupColumn l₂ c := by
  have hnd₁ : (l₁.map Prod.fst).Nodup := ((h.map Prod.fst).nodup_iff).mpr hnd₂
  cases h2 : lookupColumn l₂ c with
  | none =>
    rw [lookupColumn_eq_none_iff]
    intro hmem
    have : c ∈ l₂.map Prod.fst := ((h.map Prod.fst).mem_iff).mp hmem
    exact ((lookupColumn_eq_none_iff c l₂).mp h2) this
  | some v =>
    have hm2 : (c, v) ∈ l₂ := mem_of_lookupColumn c v l₂ h2
    have hm1 : (c, v) ∈ l₁ := h.mem_iff.mpr hm2
    exact lookupColumn_eq_some_of_mem c v l₁ hnd₁ hm1

theorem mergeResults_apply :
    ∀ (results : List (String × List TermValue)) (init : ColumnState)
      (c : String), (results.map Prod.fst).Nodup →
      mergeResults init results c =
        match lookupColumn results c with
        | some v => some v
        | none => init c := by
  intro results
  induction results with
  | nil => intro init c _; rfl
  | cons r rs ih =>
    intro init c hnd
    have hnd0 := hnd
    rw [List.map_cons] at hnd0
    have hnd' := List.nodup_cons.mp hnd0
    have hstep : mergeResults init (r :: rs) c =
        mergeResults (setColumn init r.1 r.2) rs c := rfl
    rw [hstep, ih (setColumn init r.1 r.2) c hnd'.2]
    have hcons : lookupColumn (r :: rs) c =
        if r.1 = c then some r.2 else lookupColumn rs c := rfl
    rw [hcons]
    by_cases hc : r.1 = c
    · rw [if_pos hc]
      have hnone : lookupColumn rs c = none := by
        rw [lookupColumn_eq_none_iff]
        exact hc ▸ hnd'.1
      rw [hnone]
      show setColumn init r.1 r.2 c = some r.2
      unfold setColumn
      rw [if_pos hc.symm]
    · rw [if_neg hc]
      have hset : setColumn init r.1 r.2 c = init c := by
        unfold setColumn
        rw [if_neg (fun he => hc he.symm)]
      cases hl : lookupColumn rs c with
      | none => rw [hset]
      | some v => rfl

end Oasis

namespace Oasis

/-- C10: the tasks of lines 697-700 are built, before any worker starts, from
deep copies of the grouped term metadata, the two canonical frames and the
pre-derivation FM frame, so every task carries exactly the preset inputs;
each column's derived values are a function of those preset inputs alone
(never of another column's derived values); and merging the published
`(column, result)` pairs into the shared frame (lines 752-754) yields the
same five-column table for every completion/pop order — any two
permutations of the published results merge identically, provided the five
column names are distinct. -/
theorem term_derivation_schedule_independent
    (funcs : List (String × RuleFunc)) (gfmt : GroupedFmTerms)
    (canexp : List CanExpItem) (canacc : List CanAccItem) (fm : List FmRow)
    (results₁ results₂ : List (String × List TermValue))
    (hnd : ((mkTasks funcs gfmt canexp canacc fm).map
      (fun t => t.column)).Nodup)
    (h₁ : results₁.Perm ((mkTasks funcs gfmt canexp canacc fm).map
      (fun t => (t.column, (deriveColumn t).toOption.getD []))))
    (h₂ : results₂.Perm ((mkTasks funcs gfmt canexp canacc fm).map
      (fun t => (t.column, (deriveColumn t).toOption.getD [])))) :
    mergeResults emptyColumns results₁ = mergeResults emptyColumns results₂ ∧
    ∀ t ∈ mkTasks funcs gfmt canexp canacc fm,
      t.gfmt = gfmt ∧ t.canexp = canexp ∧ t.canacc = canacc ∧ t.fm = fm ∧
      deriveColumn t = (List.range fm.length).mapM
        (fun i => t.func gfmt canexp canacc fm i) := by
  have hkeys : (((mkTasks funcs gfmt canexp canacc fm).map
      (fun t => (t.column, (deriveColumn t).toOption.getD []))).map
        Prod.fst).Nodup := by
    rw [List.map_map]
    exact hnd
  have hnd₁ : (results₁.map Prod.fst).Nodup :=
    ((h₁.map Prod.fst).nodup_iff).mpr hkeys
  have hnd₂ : (results₂.map Prod.fst).Nodup :=
    ((h₂.map Prod.fst).nodup_iff).mpr hkeys
  constructor
  · funext c
    rw [mergeResults_apply results₁ emptyColumns c hnd₁,
      mergeResults_apply results₂ emptyColumns c hnd₂,
      lookupColumn_perm h₁ hkeys c, lookupColumn_perm h₂ hkeys c]
  · intro t ht
    simp only [mkTasks, List.mem_map] at ht
    obtain ⟨cf, _, rfl⟩ := ht
    exact ⟨rfl, rfl, rfl, rfl, rfl⟩

/-- A rule function that succeeds on every row with a constant value. -/
def wOkFunc : RuleFunc := fun _ _ _ _ _ => .ok (.num 1)

/-- A rule function that raises on every row. -/
def wBadFunc : RuleFunc := fun _ _ _ _ _ => .error "RuleEvaluationError"

/-- Five all-succeeding column tasks over the three-row FM frame. -/
def wGoodFuncs : List (String × RuleFunc) :=
  [("limit", wOkFunc), ("deductible", wOkFunc), ("deductible_type", wOkFunc),
   ("share", wOkFunc), ("calcrule_id", wOkFunc)]

def wGoodTasks : List FmTask := mkTasks wGoodFuncs [] wCanexp [] wTcRows

/-- The canonical published results of the all-succeeding run, in task
order. -/
def wCanonicalResults : List (String × List TermValue) :=
  wGoodTasks.map (fun t => (t.column, (deriveColumn t).toOption.getD []))

theorem term_derivation_schedule_witness :
    mergeResults emptyColumns wCanonicalResults.reverse =
      mergeResults emptyColumns wCanonicalResults :=
  (term_derivation_schedule_independent wGoodFuncs [] wCanexp [] wTcRows
    wCanonicalResults.reverse wCanonicalResults (by decide)
    (List.reverse_perm wCanonicalResults) (List.Perm.refl _)).1

/-- C4 (amended): if any rule function raises for any row, then no column's
result buffer — including the buffers of workers that completed — is merged
into the shared FM table, and no table with some but not all term columns
populated is ever produced; but the stage does not abort: the failed worker
dies between `get_nowait` and `task_done` (lines 717-723), its task is never
marked done, so `task_q.join()` (line 750) blocks forever and the stage
hangs instead of terminating with an error. -/
theorem term_stage_failure_merges_nothing (tasks : List FmTask)
    (h : ∃ e, ∃ t ∈ tasks, deriveColumn t = .error e) :
    termStage tasks = .blocked ∧
    ∀ c, mergedColumn (termStage tasks) c = none := by
  obtain ⟨e, t, hm, he⟩ := h
  have hall : tasks.all taskCompletes = false :=
    List.all_eq_false.mpr ⟨t, hm, by simp [taskCompletes, he, Except.toOption]⟩
  constructor
  · simp [termStage, hall]
  · intro c
    simp [termStage, mergedColumn, hall]

/-- The tasks of the failing-stage run: four succeeding columns and a
raising `share` column. -/
def wTasks : List FmTask :=
  mkTasks [("limit", wOkFunc), ("deductible", wOkFunc),
    ("deductible_type", wOkFunc), ("share", wBadFunc),
    ("calcrule_id", wOkFunc)] [] wCanexp [] wTcRows

/-- The failing `share` task of `wTasks`. -/
def wBadTask : FmTask :=
  { column := "share", func := wBadFunc, gfmt := [], canexp := wCanexp,
    canacc := [], fm := wTcRows }

/-- C4 counterexample: with one raising rule function the stage ends up
blocked on the queue join — it does not reach the `aborted` (error
termination) outcome the claim asserts. -/
theorem term_stage_claim_counterexample :
    termStage wTasks = StageOutcome.blocked ∧
    StageOutcome.blocked ≠ StageOutcome.aborted :=
  ⟨rfl, fun h => StageOutcome.noConfusion h⟩

theorem term_stage_failure_witness :
    termStage wTasks = StageOutcome.blocked ∧
    mergedColumn (termStage wTasks) "limit" = none :=
  ⟨(term_stage_failure_merges_nothing wTasks
      ⟨"RuleEvaluationError", wBadTask,
        List.mem_cons_of_mem _ (List.mem_cons_of_mem _
          (List.mem_cons_of_mem _ (List.mem_cons_self _ _))), rfl⟩).1,
    (term_stage_failure_merges_nothing wTasks
      ⟨"RuleEvaluationError", wBadTask,
        List.mem_cons_of_mem _ (List.mem_cons_of_mem _
          (List.mem_cons_of_mem _ (List.mem_cons_self _ _))), rfl⟩).2
      "limit"⟩

end Oasis

namespace Oasis

/-- Total number of row computations needed by a list of tasks. -/
def sumRows (ts : List FmTask) : Nat :=
  (ts.map (fun t => t.fm.length)).sum

theorem sumRows_nil : sumRows [] = 0 := rfl

theorem sumRows_cons (t : FmTask) (ts : List FmTask) :
    sumRows (t :: ts) = t.fm.length + sumRows ts := by
  simp [sumRows]

/-- C9 (amended): a worker reads the stop flag ONLY between tasks — at the
top of its `while` loop (line 715), before claiming the next column — never
between row iterations: the published results are always those of a PREFIX
of the claimable tasks, each column computed in full (the `apply` of
line 721 runs every row even if the flag is set mid-column) and published
whole; at the moment each claimed task was taken the flag was still unset
(row-computation count below `stopAt`); and if the worker stopped before
exhausting the queue, the flag had been set by then — the remaining
columns are never computed or published, hence left unmerged. -/
theorem worker_checks_flag_between_tasks (stopAt : Nat) :
    ∀ (tasks : List FmTask) (elapsed0 : Nat)
      (pub0 : List (String × List TermValue)),
    ∃ k, k ≤ tasks.length ∧
      workerRun stopAt tasks elapsed0 pub0 =
        (elapsed0 + sumRows (tasks.take k),
         pub0 ++ (tasks.take k).map
           (fun t => (t.column, (deriveColumn t).toOption.getD []))) ∧
      (∀ j, j < k → elapsed0 + sumRows (tasks.take j) < stopAt) ∧
      (k < tasks.length → stopAt ≤ elapsed0 + sumRows (tasks.take k)) := by
  intro tasks
  induction tasks with
  | nil =>
    intro elapsed0 pub0
    refine ⟨0, Nat.le_refl 0, ?_, ?_, ?_⟩
    · unfold workerRun
      split <;> simp [sumRows]
    · intro j hj; omega
    · intro h; simp at h
  | cons t ts ih =>
    intro elapsed0 pub0
    by_cases hstop : stopAt ≤ elapsed0
    · refine ⟨0, Nat.zero_le _, ?_, ?_, ?_⟩
      · unfold workerRun
        rw [if_pos hstop]
        simp [sumRows]
      · intro j hj; omega
      · intro _
        simpa [sumRows] using hstop
    · obtain ⟨k, hk, heq, hbefore, hafter⟩ :=
        ih (elapsed0 + t.fm.length)
          (pub0 ++ [(t.column, (deriveColumn t).toOption.getD [])])
      have hstep : workerRun stopAt (t :: ts) elapsed0 pub0 =
          if stopAt ≤ elapsed0 then (elapsed0, pub0)
          else workerRun stopAt ts (elapsed0 + t.fm.length)
            (pub0 ++ [(t.column, (deriveColumn t).toOption.getD [])]) := rfl
      refine ⟨k + 1, by simpa using Nat.succ_le_succ hk, ?_, ?_, ?_⟩
      · rw [hstep, if_neg hstop, heq, List.take_succ_cons, sumRows_cons,
          List.map_cons]
        simp only [Prod.mk.injEq, List.append_assoc, List.singleton_append,
          Nat.add_assoc]
      · intro j hj
        cases j with
        | zero => simpa [sumRows] using Nat.lt_of_not_le hstop
        | succ j =>
          have := hbefore j (by omega)
          rw [List.take_succ_cons, sumRows_cons]
          omega
      · intro hlen
        have := hafter (by simpa using Nat.lt_of_succ_lt_succ hlen)
        rw [List.take_succ_cons, sumRows_cons]
        omega

/-- The worker task used by the flag-timing counterexample: one succeeding
column over the three-row FM frame. -/
def wWorkTask : FmTask :=
  { column := "limit", func := wOkFunc, gfmt := [], canexp := wCanexp,
    canacc := [], fm := wTcRows }

/-- C9 counterexample: the stop flag is set after 1 row computation
(`stopAt = 1`), yet the worker — which had already claimed the three-row
`limit` column — computes all 3 rows (elapsed 3 > 1, so rows were computed
after the flag was set, contradicting "checks the flag between row
iterations and exits early") and still publishes the full column
(contradicting "any column whose worker was interrupted is left
unmerged"). -/
theorem worker_flag_claim_counterexample :
    (workerRun 1 [wWorkTask] 0 []).1 = 3 ∧
    ¬(workerRun 1 [wWorkTask] 0 []).1 ≤ 1 ∧
    (workerRun 1 [wWorkTask] 0 []).2.map Prod.fst = ["limit"] := by
  refine ⟨rfl, by decide, rfl⟩

end Oasis

namespace Oasis

theorem worker_flag_amended_witness :
    workerRun 1 [wWorkTask] 0 [] =
      (0 + sumRows [wWorkTask],
       [] ++ [wWorkTask].map
         (fun t => (t.column, (deriveColumn t).toOption.getD []))) := by
  obtain ⟨k, hk, heq, _, hafter⟩ :=
    worker_checks_flag_between_tasks 1 [wWorkTask] 0 []
  have hk' : k ≤ 1 := by simpa using hk
  have hk1 : k = 1 := by
    rcases Nat.lt_or_ge k 1 with h | h
    · have hk0 : k = 0 := by omega
      subst hk0
      have := hafter (by simp)
      simp [sumRows] at this
    · omega
  subst hk1
  exact heq

end Oasis
